import Mathlib

/-!
# Verification of the CN2-SD rule-search engine

Shallow embedding of `src/CN2_SD.py` (class `CN2_SD`, classes `Rule` and
`Antecedent`) and of `src/utils/utils.py` (`data_frame_difference`).

Modelling conventions:
* A data-frame row becomes a `Row`: the list of (categorical) feature values
  in schema order, plus the two columns `weights` and `weight_times` that
  `add_weights` appends (kept as record fields; their pandas dtype `float64`
  keeps them out of selector generation exactly as in the code).
* pandas floats become exact rationals `ℚ`; the update counter is a `ℕ`
  (it starts at 0 and is only ever incremented by 1).
* Row selection by boolean mask (`df[df[col] == v]`) becomes `List.filter`.
* `.loc[index, col] = series` label-based assignment becomes a predicate-based
  map: the label sets used by `apply_rule` are exactly the rows satisfying
  a predicate on the (immutable) feature values, so label membership and the
  predicate agree row by row.
* The two `while` loops in the search (`find_best_rule`'s outer loop and the
  beam-trim loop) are modelled with explicit fuel returning `Option`;
  `none` means the fuel ran out / the loop would not have progressed.
-/

/-- An `Antecedent` from `CN2_SD.py`: an equality test `variable = value`.
(`variable` is a Lean keyword, so the field is named `var`.) -/
structure Antecedent where
  var : String
  value : String
deriving DecidableEq, Repr

/-- A `Rule` from `CN2_SD.py`: ordered antecedents plus the cached WRAcc
score, which `Rule.__init__` defaults to 0. -/
structure Rule where
  antecedents : List Antecedent
  wracc : ℚ
deriving DecidableEq, Repr

/-- A schema column: its name and its pandas dtype name (e.g. `"object"`,
`"category"`, `"int64"`, `"float64"`). -/
structure Col where
  name : String
  dtype : String
deriving DecidableEq, Repr

/-- One row of `current_data`: the feature values in schema order plus the
`weights` and `weight_times` columns added by `add_weights`. -/
structure Row where
  vals : List String
  weight : ℚ
  weight_times : ℕ
deriving DecidableEq, Repr

/-- The constructor parameters of `CN2_SD.__init__`. -/
structure Config where
  col_output : String
  positive_class : String
  max_expr : ℕ
  min_wracc : ℚ
  weight_method : ℕ
  gamma : ℚ
deriving Repr

/-- `row[name]`: look the column name up in the schema and read the value at
that position (pandas would raise `KeyError` for a missing column; antecedents
are only ever built from existing columns). -/
def lookupVal (schema : List Col) (r : Row) (name : String) : Option String :=
  match schema.findIdx? (fun c => c.name == name) with
  | some i => r.vals.get? i
  | none => none

/-- `data[data[antecedent.variable] == antecedent.value]` membership test for
one row. -/
def satisfiesAnt (schema : List Col) (r : Row) (a : Antecedent) : Bool :=
  lookupVal schema r a.var == some a.value

/-- A row satisfies every antecedent of a rule. -/
def matchesRule (schema : List Col) (ants : List Antecedent) (r : Row) : Bool :=
  ants.all (satisfiesAnt schema r)

/-- `data[data[self.col_output] == self.positive_class]` membership test. -/
def isPositive (cfg : Config) (schema : List Col) (r : Row) : Bool :=
  lookupVal schema r cfg.col_output == some cfg.positive_class

/-- `sum(data["weights"])`. -/
def sumWeights (l : List Row) : ℚ :=
  (l.map Row.weight).sum

/-- The successive filtering
`for antecedent in rule.antecedents: data_cond = data_cond[...]`
in `check_rule` and `apply_rule`. -/
def filterByAntecedents (schema : List Col) (ants : List Antecedent)
    (data : List Row) : List Row :=
  ants.foldl (fun d a => d.filter (fun r => satisfiesAnt schema r a)) data

/-- `CN2_SD.calculate_WRAcc` (lines 282-296): zero guard on `n_cond`,
otherwise `(n_cond / N) * ((n_class_cond / n_cond) - (n_class / N))`. -/
def calculate_WRAcc (cfg : Config) (schema : List Col) (data_cond : List Row)
    (N n_class : ℚ) : ℚ :=
  if sumWeights data_cond = 0 then 0
  else (sumWeights data_cond / N) *
    ((sumWeights (data_cond.filter (isPositive cfg schema)) /
        sumWeights data_cond) - (n_class / N))

/-- Iterated one-antecedent filtering equals a single pass with the
conjunction of all antecedents. -/
theorem filterByAntecedents_eq_filter (schema : List Col)
    (ants : List Antecedent) (data : List Row) :
    filterByAntecedents schema ants data =
      data.filter (matchesRule schema ants) := by
  induction ants generalizing data with
  | nil =>
    simp only [filterByAntecedents, List.foldl_nil]
    symm
    apply List.filter_eq_self.mpr
    intro r _
    simp [matchesRule]
  | cons a rest ih =>
    show filterByAntecedents schema rest
        (data.filter (fun r => satisfiesAnt schema r a)) = _
    rw [ih]
    rw [List.filter_filter]
    apply List.filter_congr
    intro r _
    simp [matchesRule, List.all_cons, Bool.and_comm]

/-- **C1.** For every candidate rule scored against the current weighted
dataset: with `N` the total weight, `n_c` the positive-class weight,
`n_cond` the weight covered by the rule and `n_cond_c` the positive-class
weight covered by the rule, `calculate_WRAcc` applied to the successively
filtered data returns 0 when `n_cond = 0` and otherwise exactly
`(n_cond / N) * (n_cond_c / n_cond - n_c / N)`. -/
theorem C1_calculate_WRAcc_spec (cfg : Config) (schema : List Col)
    (current : List Row) (rule : Rule) :
    calculate_WRAcc cfg schema
        (filterByAntecedents schema rule.antecedents current)
        (sumWeights current)
        (sumWeights (current.filter (isPositive cfg schema))) =
      if sumWeights (current.filter (matchesRule schema rule.antecedents)) = 0
      then 0
      else
        (sumWeights (current.filter (matchesRule schema rule.antecedents)) /
            sumWeights current) *
          (sumWeights ((current.filter (matchesRule schema rule.antecedents)).filter
                (isPositive cfg schema)) /
              sumWeights (current.filter (matchesRule schema rule.antecedents)) -
            sumWeights (current.filter (isPositive cfg schema)) /
              sumWeights current) := by
  rw [filterByAntecedents_eq_filter]
  rfl

/-- `data_frame_difference` from `utils.py`: rows of `df1` whose full tuple
of column values (features, output, weights, weight_times — i.e. the whole
`Row` record) does not appear in `df2`. -/
def data_frame_difference (df1 df2 : List Row) : List Row :=
  df1.filter (fun r => !(decide (r ∈ df2)))

/-- The row set affected by the decay branches and the counter increment in
`apply_rule`: `data_rule_positive` membership, i.e. satisfying every
antecedent and belonging to the positive class.  (The code addresses these
rows through their index labels; the label set is exactly the rows of
`current_data` satisfying this predicate on the immutable feature values.) -/
def affectedPositive (cfg : Config) (schema : List Col) (rule : Rule)
    (r : Row) : Bool :=
  matchesRule schema rule.antecedents r && isPositive cfg schema r

/-- `CN2_SD.apply_rule` (lines 184-210).  First the weight assignment for
the selected `weight_method` (1: multiplicative `gamma ** t`,
2: additive `1/(t+1)`, 0: covering, removing all rows tuple-present in
`data_rule`), then the `weight_times` increment over `data_rule_positive`'s
label set. -/
def apply_rule (cfg : Config) (schema : List Col) (rule : Rule)
    (current : List Row) : List Row :=
  (if cfg.weight_method = 1 then
      current.map (fun r =>
        if affectedPositive cfg schema rule r then
          { r with weight := cfg.gamma ^ r.weight_times }
        else r)
    else if cfg.weight_method = 2 then
      current.map (fun r =>
        if affectedPositive cfg schema rule r then
          { r with weight := 1 / ((r.weight_times : ℚ) + 1) }
        else r)
    else if cfg.weight_method = 0 then
      data_frame_difference current
        (filterByAntecedents schema rule.antecedents current)
    else current).map
    (fun r =>
      if affectedPositive cfg schema rule r then
        { r with weight_times := r.weight_times + 1 }
      else r)

/-- Under the covering policy the tuple-based difference against
`data_rule` is exactly the filter that drops every row satisfying all the
antecedents. -/
theorem data_frame_difference_filter (schema : List Col)
    (ants : List Antecedent) (current : List Row) :
    data_frame_difference current (filterByAntecedents schema ants current) =
      current.filter (fun r => !(matchesRule schema ants r)) := by
  rw [filterByAntecedents_eq_filter]
  apply List.filter_congr
  intro r hr
  by_cases h : matchesRule schema ants r = true
  · simp [List.mem_filter, hr, h]
  · simp only [Bool.not_eq_true] at h
    simp [List.mem_filter, h]

/-- **C2.** Under the covering policy (`weight_method = 0`) applying a rule
removes exactly the rows (positive or negative class) satisfying all its
antecedents, the trailing `weight_times` increment is a no-op on the
surviving rows (they are returned unchanged), and the dataset never grows. -/
theorem C2_covering_removes_matched (cfg : Config) (schema : List Col)
    (rule : Rule) (current : List Row) (h : cfg.weight_method = 0) :
    apply_rule cfg schema rule current =
        current.filter (fun r => !(matchesRule schema rule.antecedents r)) ∧
      (apply_rule cfg schema rule current).length ≤ current.length := by
  have hstep : apply_rule cfg schema rule current =
      (current.filter (fun r => !(matchesRule schema rule.antecedents r))).map
        (fun r =>
          if affectedPositive cfg schema rule r then
            { r with weight_times := r.weight_times + 1 }
          else r) := by
    unfold apply_rule
    rw [h]
    norm_num
    rw [data_frame_difference_filter]
  have hident :
      ∀ r ∈ current.filter (fun r => !(matchesRule schema rule.antecedents r)),
        (if affectedPositive cfg schema rule r then
            { r with weight_times := r.weight_times + 1 }
          else r) = r := by
    intro r hr
    rw [List.mem_filter] at hr
    have hm : matchesRule schema rule.antecedents r = false := by
      simpa using hr.2
    simp [affectedPositive, hm]
  have hid : apply_rule cfg schema rule current =
      current.filter (fun r => !(matchesRule schema rule.antecedents r)) := by
    rw [hstep]
    rw [List.map_congr_left hident]
    exact List.map_id _
  refine ⟨hid, ?_⟩
  rw [hid]
  exact List.length_filter_le _ _

/-- Antecedent satisfaction only reads the feature values, so it is
unchanged by a weight update. -/
theorem matchesRule_weight_update (schema : List Col) (ants : List Antecedent)
    (r : Row) (w : ℚ) :
    matchesRule schema ants { r with weight := w } = matchesRule schema ants r :=
  rfl

/-- Positivity only reads the feature values, so it is unchanged by a
weight update. -/
theorem isPositive_weight_update (cfg : Config) (schema : List Col)
    (r : Row) (w : ℚ) :
    isPositive cfg schema { r with weight := w } = isPositive cfg schema r :=
  rfl

/-- The affected-row predicate is unchanged by a weight update. -/
theorem affectedPositive_weight_update (cfg : Config) (schema : List Col)
    (rule : Rule) (r : Row) (w : ℚ) :
    affectedPositive cfg schema rule { r with weight := w } =
      affectedPositive cfg schema rule r :=
  rfl

/-- **C4.** Under a decay policy (`weight_method = 1` or `2`) exactly the
rows satisfying all antecedents and belonging to the positive class are
affected: their weight becomes `gamma ^ t` (multiplicative) or `1 / (t + 1)`
(additive) with `t` the row's `weight_times` before the update, and their
counter becomes `t + 1`; every other row is returned unchanged and the
dataset size is unchanged. -/
theorem C4_decay_update (cfg : Config) (schema : List Col) (rule : Rule)
    (current : List Row) (h : cfg.weight_method = 1 ∨ cfg.weight_method = 2) :
    apply_rule cfg schema rule current =
        current.map (fun r =>
          if matchesRule schema rule.antecedents r ∧
              isPositive cfg schema r then
            { r with
                weight :=
                  if cfg.weight_method = 1 then cfg.gamma ^ r.weight_times
                  else 1 / ((r.weight_times : ℚ) + 1),
                weight_times := r.weight_times + 1 }
          else r) ∧
      (apply_rule cfg schema rule current).length = current.length := by
  have key : apply_rule cfg schema rule current =
      current.map (fun r =>
        if matchesRule schema rule.antecedents r ∧
            isPositive cfg schema r then
          { r with
              weight :=
                if cfg.weight_method = 1 then cfg.gamma ^ r.weight_times
                else 1 / ((r.weight_times : ℚ) + 1),
              weight_times := r.weight_times + 1 }
        else r) := by
    rcases h with h1 | h2
    · unfold apply_rule
      rw [h1]
      norm_num
      intro r _
      by_cases hm : matchesRule schema rule.antecedents r = true <;>
        by_cases hq : isPositive cfg schema r = true <;>
        simp [Function.comp, affectedPositive_weight_update, affectedPositive,
          matchesRule_weight_update, isPositive_weight_update, hm, hq]
    · unfold apply_rule
      rw [h2]
      norm_num
      intro r _
      by_cases hm : matchesRule schema rule.antecedents r = true <;>
        by_cases hq : isPositive cfg schema r = true <;>
        simp [Function.comp, affectedPositive_weight_update, affectedPositive,
          matchesRule_weight_update, isPositive_weight_update, hm, hq]
  refine ⟨key, ?_⟩
  rw [key, List.length_map]

/-- The scan of `CN2_SD.eliminate_worst` (lines 167-182): starting from
`worst_wracc = 1` and `worst_rule = None`, remember the position of each
rule that strictly improves on the running minimum. -/
def findWorstAux : List Rule → ℚ → Option ℕ → ℕ → Option ℕ
  | [], _, acc, _ => acc
  | r :: rest, worst, acc, i =>
    if r.wracc < worst then findWorstAux rest r.wracc (some i) (i + 1)
    else findWorstAux rest worst acc (i + 1)

/-- `CN2_SD.eliminate_worst`: remove the rule found by the scan
(`list.remove` removes the first occurrence of that very object, i.e. the
element at the found position); if no rule has `wracc < 1`, nothing is
removed. -/
def eliminate_worst (rule_set : List Rule) : List Rule :=
  match findWorstAux rule_set 1 none 0 with
  | some i => rule_set.eraseIdx i
  | none => rule_set

/-- Structural-recursive form of the scan: position of the first rule
strictly below the running minimum threshold. -/
def firstMinIdx? : List Rule → ℚ → Option ℕ
  | [], _ => none
  | r :: rest, worst =>
    if r.wracc < worst then
      match firstMinIdx? rest r.wracc with
      | none => some 0
      | some j => some (j + 1)
    else (firstMinIdx? rest worst).map (· + 1)

theorem findWorstAux_eq_firstMinIdx (l : List Rule) (worst : ℚ)
    (acc : Option ℕ) (i : ℕ) :
    findWorstAux l worst acc i =
      match firstMinIdx? l worst with
      | some j => some (i + j)
      | none => acc := by
  induction l generalizing worst acc i with
  | nil => rfl
  | cons r rest ih =>
    by_cases h : r.wracc < worst
    · rw [findWorstAux, if_pos h, ih, firstMinIdx?, if_pos h]
      cases hfm : firstMinIdx? rest r.wracc with
      | none => simp
      | some j => simp; omega
    · rw [findWorstAux, if_neg h, ih, firstMinIdx?, if_neg h]
      cases hfm : firstMinIdx? rest worst with
      | none => simp
      | some j => simp; omega

theorem firstMinIdx_none (l : List Rule) (worst : ℚ)
    (h : ∀ r ∈ l, worst ≤ r.wracc) : firstMinIdx? l worst = none := by
  induction l generalizing worst with
  | nil => rfl
  | cons r rest ih =>
    have hr : ¬ r.wracc < worst := not_lt.mpr (h r (by simp))
    rw [firstMinIdx?, if_neg hr, ih worst (fun q hq => h q (by simp [hq]))]
    rfl

/-- If some rule is strictly below the threshold, the scan finds the first
position attaining the overall minimum: every rule before it is strictly
worse-scoring (higher), and no rule anywhere scores lower. -/
theorem firstMinIdx_some (l : List Rule) (worst : ℚ)
    (h : ∃ r ∈ l, r.wracc < worst) :
    ∃ l1 w l2, l = l1 ++ w :: l2 ∧
      firstMinIdx? l worst = some l1.length ∧
      w.wracc < worst ∧
      (∀ q ∈ l, w.wracc ≤ q.wracc) ∧
      (∀ q ∈ l1, w.wracc < q.wracc) := by
  induction l generalizing worst with
  | nil => simp at h
  | cons r rest ih =>
    by_cases hr : r.wracc < worst
    · by_cases hrest : ∃ q ∈ rest, q.wracc < r.wracc
      · obtain ⟨l1, w, l2, heq, hidx, hw, hmin, hbefore⟩ := ih r.wracc hrest
        refine ⟨r :: l1, w, l2, by simp [heq], ?_, lt_trans hw hr, ?_, ?_⟩
        · rw [firstMinIdx?, if_pos hr, hidx]
          simp
        · intro q hq
          rcases List.mem_cons.mp hq with hq | hq
          · exact hq ▸ le_of_lt hw
          · exact hmin q (heq ▸ hq)
        · intro q hq
          rcases List.mem_cons.mp hq with hq | hq
          · exact hq ▸ hw
          · exact hbefore q hq
      · push_neg at hrest
        refine ⟨[], r, rest, rfl, ?_, hr, ?_, by simp⟩
        · rw [firstMinIdx?, if_pos hr,
            firstMinIdx_none rest r.wracc hrest]
          rfl
        · intro q hq
          rcases List.mem_cons.mp hq with hq | hq
          · exact hq ▸ le_refl _
          · exact hrest q hq
    · have hrest : ∃ q ∈ rest, q.wracc < worst := by
        obtain ⟨q, hq, hlt⟩ := h
        rcases List.mem_cons.mp hq with hq | hq
        · exact absurd (hq ▸ hlt) hr
        · exact ⟨q, hq, hlt⟩
      obtain ⟨l1, w, l2, heq, hidx, hw, hmin, hbefore⟩ := ih worst hrest
      refine ⟨r :: l1, w, l2, by simp [heq], ?_, hw, ?_, ?_⟩
      · rw [firstMinIdx?, if_neg hr, hidx]
        simp
      · intro q hq
        rcases List.mem_cons.mp hq with hq | hq
        · exact hq ▸ le_of_lt (lt_of_lt_of_le hw (not_lt.mp hr))
        · exact hmin q (heq ▸ hq)
      · intro q hq
        rcases List.mem_cons.mp hq with hq | hq
        · exact hq ▸ lt_of_lt_of_le hw (not_lt.mp hr)
        · exact hbefore q hq

theorem eraseIdx_append_cons (l1 : List Rule) (w : Rule) (l2 : List Rule) :
    (l1 ++ w :: l2).eraseIdx l1.length = l1 ++ l2 := by
  induction l1 with
  | nil => rfl
  | cons a rest ih => simp [List.eraseIdx, ih]

/-- `eliminate_worst` on a set containing some rule with `wracc < 1`
removes exactly the first-encountered minimum-WRAcc rule. -/
theorem eliminate_worst_spec (rs : List Rule) (h : ∃ r ∈ rs, r.wracc < 1) :
    ∃ l1 w l2, rs = l1 ++ w :: l2 ∧
      eliminate_worst rs = l1 ++ l2 ∧
      w.wracc < 1 ∧
      (∀ q ∈ rs, w.wracc ≤ q.wracc) ∧
      (∀ q ∈ l1, w.wracc < q.wracc) := by
  obtain ⟨l1, w, l2, heq, hidx, hw, hmin, hbefore⟩ := firstMinIdx_some rs 1 h
  refine ⟨l1, w, l2, heq, ?_, hw, hmin, hbefore⟩
  rw [eliminate_worst, findWorstAux_eq_firstMinIdx, hidx]
  simpa [heq] using eraseIdx_append_cons l1 w l2

/-- `eliminate_worst` on a set where every rule has `wracc ≥ 1` removes
nothing. -/
theorem eliminate_worst_stuck (rs : List Rule) (h : ∀ r ∈ rs, 1 ≤ r.wracc) :
    eliminate_worst rs = rs := by
  rw [eliminate_worst, findWorstAux_eq_firstMinIdx, firstMinIdx_none rs 1 h]

/-- The `while len(new_rule_set) > self.max_expr: self.eliminate_worst(...)`
loop of `find_best_rule` (lines 109-110), with explicit fuel; `none` marks
an iteration in which `eliminate_worst` failed to shrink the set (the
Python loop would then never terminate) or exhausted fuel. -/
def trimLoop (B : ℕ) : ℕ → List Rule → Option (List Rule)
  | 0, rs => if rs.length ≤ B then some rs else none
  | fuel + 1, rs =>
    if rs.length ≤ B then some rs
    else if (eliminate_worst rs).length < rs.length then
      trimLoop B fuel (eliminate_worst rs)
    else none

theorem eliminate_worst_subset (rs : List Rule) :
    ∀ r ∈ eliminate_worst rs, r ∈ rs := by
  intro r hr
  rw [eliminate_worst] at hr
  cases hfm : findWorstAux rs 1 none 0 with
  | none => rw [hfm] at hr; exact hr
  | some i => rw [hfm] at hr; exact List.mem_of_mem_eraseIdx hr

/-- If every rule scores strictly below 1 the trim loop terminates with at
most `B` candidates, reached by iterating `eliminate_worst`. -/
theorem trimLoop_total (B : ℕ) :
    ∀ (fuel : ℕ) (rs : List Rule), (∀ r ∈ rs, r.wracc < 1) →
      rs.length ≤ fuel →
      ∃ out, trimLoop B fuel rs = some out ∧ out.length ≤ B ∧
        ∃ k, out = eliminate_worst^[k] rs := by
  intro fuel
  induction fuel with
  | zero =>
    intro rs _ hlen
    have h0 : rs.length ≤ B := le_trans hlen (Nat.zero_le B)
    exact ⟨rs, by rw [trimLoop, if_pos h0], h0, 0, rfl⟩
  | succ fuel ih =>
    intro rs hall hlen
    by_cases hB : rs.length ≤ B
    · exact ⟨rs, by rw [trimLoop, if_pos hB], hB, 0, rfl⟩
    · have hne : rs ≠ [] := by
        intro hnil
        rw [hnil] at hB
        exact hB (Nat.zero_le B)
      have hex : ∃ r ∈ rs, r.wracc < 1 := by
        obtain ⟨r, hr⟩ := List.exists_mem_of_ne_nil rs hne
        exact ⟨r, hr, hall r hr⟩
      obtain ⟨l1, w, l2, heq, helim, _, _, _⟩ := eliminate_worst_spec rs hex
      have hshrink : (eliminate_worst rs).length < rs.length := by
        rw [helim, heq]
        simp
      have hall' : ∀ r ∈ eliminate_worst rs, r.wracc < 1 :=
        fun r hr => hall r (eliminate_worst_subset rs r hr)
      have hlen' : (eliminate_worst rs).length ≤ fuel := by omega
      obtain ⟨out, hout, houtB, k, hk⟩ := ih (eliminate_worst rs) hall' hlen'
      refine ⟨out, ?_, houtB, k + 1, ?_⟩
      · rw [trimLoop, if_neg hB]
        simpa [hshrink] using hout
      · rw [hk, Function.iterate_succ_apply]

/-- **C5.** With every candidate scoring below 1 (always the case for
scored candidates, whose WRAcc is at most 1/4), the beam-trim loop
terminates with at most `B = max_expr` candidates, obtained by iterating
`eliminate_worst`; and whenever the set exceeds `B`, each `eliminate_worst`
pass removes exactly one candidate, the first-encountered one attaining the
minimum WRAcc. -/
theorem C5_trim_beam (B : ℕ) (rs : List Rule)
    (h : ∀ r ∈ rs, r.wracc < 1) :
    (∃ out, trimLoop B rs.length rs = some out ∧ out.length ≤ B ∧
        ∃ k, out = eliminate_worst^[k] rs) ∧
      (∀ rs' : List Rule, (∀ r ∈ rs', r.wracc < 1) → B < rs'.length →
        ∃ l1 w l2, rs' = l1 ++ w :: l2 ∧
          eliminate_worst rs' = l1 ++ l2 ∧
          (∀ q ∈ rs', w.wracc ≤ q.wracc) ∧
          (∀ q ∈ l1, w.wracc < q.wracc)) := by
  constructor
  · exact trimLoop_total B rs.length rs h (le_refl _)
  · intro rs' hall hB
    have hne : rs' ≠ [] := by
      intro hnil
      rw [hnil] at hB
      simp at hB
    have hex : ∃ r ∈ rs', r.wracc < 1 := by
      obtain ⟨r, hr⟩ := List.exists_mem_of_ne_nil rs' hne
      exact ⟨r, hr, hall r hr⟩
    obtain ⟨l1, w, l2, heq, helim, _, hmin, hbefore⟩ :=
      eliminate_worst_spec rs' hex
    exact ⟨l1, w, l2, heq, helim, hmin, hbefore⟩

/-- **C9.** On a non-empty rule set whose rules all score below 1,
`eliminate_worst` removes exactly one rule, so the trim loop in
`find_best_rule` terminates; on a set where every rule scores at least 1 it
removes nothing (the trim loop would spin forever). -/
theorem C9_eliminate_worst_progress (rs : List Rule) :
    ((rs ≠ [] ∧ ∀ r ∈ rs, r.wracc < 1) →
        (eliminate_worst rs).length + 1 = rs.length) ∧
      ((∀ r ∈ rs, 1 ≤ r.wracc) → eliminate_worst rs = rs) ∧
      ((∀ r ∈ rs, r.wracc < 1) → ∀ B : ℕ,
        ∃ out, trimLoop B rs.length rs = some out) := by
  refine ⟨?_, eliminate_worst_stuck rs, ?_⟩
  · rintro ⟨hne, hall⟩
    have hex : ∃ r ∈ rs, r.wracc < 1 := by
      obtain ⟨r, hr⟩ := List.exists_mem_of_ne_nil rs hne
      exact ⟨r, hr, hall r hr⟩
    obtain ⟨l1, w, l2, heq, helim, _, _, _⟩ := eliminate_worst_spec rs hex
    rw [helim, heq]
    simp
    omega
  · intro hall B
    obtain ⟨out, hout, _, _⟩ := trimLoop_total B rs.length rs hall (le_refl _)
    exact ⟨out, hout⟩

/-- The matching-pair count of `Rule.is_equal` for a single antecedent of
`self` against all antecedents of the other rule. -/
def countMatches (a : Antecedent) (ants : List Antecedent) : ℕ :=
  (ants.filter (fun b => a.var == b.var && a.value == b.value)).length

/-- `Rule.is_equal` (lines 333-345): equal lengths and as many matching
(variable, value) pairs as `self` has antecedents. -/
def is_equal (self other : Rule) : Bool :=
  if self.antecedents.length ≠ other.antecedents.length then false
  else
    decide
      ((self.antecedents.map (fun a => countMatches a other.antecedents)).sum =
        self.antecedents.length)

/-- The variable-collecting loop of `Rule.is_valid` (lines 321-325):
`false` as soon as an antecedent repeats a variable already seen. -/
def noRepeatedVarAux : List Antecedent → List String → Bool
  | [], _ => true
  | a :: rest, seen =>
    if seen.contains a.var then false
    else noRepeatedVarAux rest (a.var :: seen)

/-- `Rule.is_valid` (lines 313-331): no repeated variable among the
antecedents, and not `is_equal` to any rule of the current rule list. -/
def is_valid (self : Rule) (current_rule_list : List Rule) : Bool :=
  noRepeatedVarAux self.antecedents [] &&
    current_rule_list.all (fun rule => !(is_equal self rule))

theorem noRepeatedVarAux_iff (ants : List Antecedent) :
    ∀ seen : List String,
      noRepeatedVarAux ants seen = true ↔
        (ants.map Antecedent.var).Nodup ∧ ∀ a ∈ ants, a.var ∉ seen := by
  induction ants with
  | nil => intro seen; simp [noRepeatedVarAux]
  | cons a rest ih =>
    intro seen
    by_cases hs : seen.contains a.var
    · rw [noRepeatedVarAux, if_pos hs]
      apply iff_of_false (by simp)
      rintro ⟨_, hnot⟩
      exact hnot a (by simp) (by simpa using hs)
    · rw [noRepeatedVarAux, if_neg hs, ih (a.var :: seen)]
      have hs' : a.var ∉ seen := by simpa using hs
      constructor
      · rintro ⟨hnd, hmem⟩
        refine ⟨?_, ?_⟩
        · rw [List.map_cons, List.nodup_cons]
          refine ⟨fun hin => ?_, hnd⟩
          obtain ⟨b, hb, hvb⟩ := List.mem_map.mp hin
          exact hmem b hb (by simp [hvb])
        · intro b hb
          rcases List.mem_cons.mp hb with hb | hb
          · exact hb ▸ hs'
          · exact fun hin => hmem b hb (List.mem_cons.mpr (Or.inr hin))
      · rintro ⟨hnd, hmem⟩
        rw [List.map_cons, List.nodup_cons] at hnd
        refine ⟨hnd.2, ?_⟩
        intro b hb
        rw [List.mem_cons]
        rintro (hvb | hvb)
        · exact hnd.1 (hvb ▸ List.mem_map.mpr ⟨b, hb, rfl⟩)
        · exact hmem b (List.mem_cons.mpr (Or.inr hb)) hvb

/-- The pair test of `is_equal` holds exactly for equal antecedents. -/
theorem countMatches_pred_iff (x y : Antecedent) :
    (x.var == y.var && x.value == y.value) = true ↔ y = x := by
  cases x with | mk xv xl =>
  cases y with | mk yv yl =>
  simp only [Bool.and_eq_true, beq_iff_eq, Antecedent.mk.injEq]
  constructor
  · rintro ⟨h1, h2⟩
    exact ⟨h1.symm, h2.symm⟩
  · rintro ⟨h1, h2⟩
    exact ⟨h1.symm, h2.symm⟩

theorem countMatches_eq_count (x : Antecedent) (l : List Antecedent) :
    countMatches x l = l.count x := by
  rw [countMatches, List.count, List.countP_eq_length_filter]
  congr 1
  apply List.filter_congr
  intro y _
  rw [Bool.eq_iff_iff, countMatches_pred_iff, beq_iff_eq]

/-- Two rules whose antecedent variables are duplicate-free and whose
antecedent collections are set-equal are `is_equal`. -/
theorem is_equal_of_set_eq (a b : Rule)
    (ha : (a.antecedents.map Antecedent.var).Nodup)
    (hb : (b.antecedents.map Antecedent.var).Nodup)
    (hset : ∀ x, x ∈ a.antecedents ↔ x ∈ b.antecedents) :
    is_equal a b = true := by
  have hand : a.antecedents.Nodup := ha.of_map
  have hbnd : b.antecedents.Nodup := hb.of_map
  have hfin : a.antecedents.toFinset = b.antecedents.toFinset := by
    ext x
    simp only [List.mem_toFinset]
    exact hset x
  have hlen : a.antecedents.length = b.antecedents.length := by
    rw [← List.toFinset_card_of_nodup hand, ← List.toFinset_card_of_nodup hbnd,
      hfin]
  have hsum :
      (a.antecedents.map (fun x => countMatches x b.antecedents)).sum =
        a.antecedents.length := by
    have hone : ∀ x ∈ a.antecedents,
        countMatches x b.antecedents = 1 := by
      intro x hx
      rw [countMatches_eq_count]
      exact List.count_eq_one_of_mem hbnd ((hset x).mp hx)
    rw [List.map_congr_left hone]
    simp [List.map_const']
  rw [is_equal, if_neg (by simp [hlen])]
  simpa using hsum

/-- The first-appearance deduplication loop of pandas `Series.unique`
(observed values in order of first appearance), written as the accumulator
scan actually performed. -/
def uniqueValsAux : List String → List String → List String
  | [], acc => acc
  | v :: rest, acc =>
    if acc.contains v then uniqueValsAux rest acc
    else uniqueValsAux rest (acc ++ [v])

/-- `column.astype("category"); column.unique()` in `generate_selectors`:
the distinct values of the column in order of first appearance. -/
def uniqueVals (l : List String) : List String :=
  uniqueValsAux l []

/-- The dtype allow-list of `generate_selectors` (line 126). -/
def level_categories : List String :=
  ["object", "category", "int64", "int32"]

/-- `CN2_SD.generate_selectors` (lines 116-137): for every non-target
column whose dtype is categorical or integer, one antecedent per distinct
observed value; columns are visited in schema order. -/
def generate_selectors (cfg : Config) (schema : List Col)
    (current : List Row) : List Antecedent :=
  schema.enum.flatMap (fun ic =>
    if ic.2.name == cfg.col_output then []
    else if level_categories.contains ic.2.dtype then
      (uniqueVals (current.map (fun r => r.vals.getD ic.1 ""))).map
        (fun v => ⟨ic.2.name, v⟩)
    else [])

/-- Reference form of first-appearance deduplication: keep the head, drop
its later duplicates, recurse. -/
def keepFirst : List String → List String
  | [] => []
  | v :: rest => v :: keepFirst (rest.filter (fun w => !(w == v)))
termination_by l => l.length
decreasing_by
  simpa using Nat.lt_succ_of_le (List.length_filter_le _ rest)

theorem uniqueValsAux_eq (l : List String) :
    ∀ acc : List String,
      uniqueValsAux l acc =
        acc ++ keepFirst (l.filter (fun w => !(acc.contains w))) := by
  induction l with
  | nil => intro acc; simp [uniqueValsAux, keepFirst]
  | cons v rest ih =>
    intro acc
    by_cases hc : acc.contains v
    · rw [uniqueValsAux, if_pos hc, ih acc]
      have hmem : v ∈ acc := by simpa using hc
      congr 2
      rw [List.filter_cons]
      simp [hmem]
    · rw [uniqueValsAux, if_neg hc, ih (acc ++ [v])]
      have hnm : v ∉ acc := by simpa using hc
      rw [List.filter_cons]
      rw [if_pos (by simp [hnm] : (!(acc.contains v)) = true)]
      rw [keepFirst, List.filter_filter, List.append_assoc]
      congr 1
      rw [List.singleton_append]
      congr 2
      apply List.filter_congr
      intro w _
      by_cases h1 : w = v <;> by_cases h2 : w ∈ acc <;> simp [h1, h2, hnm]

theorem uniqueVals_eq_keepFirst (l : List String) :
    uniqueVals l = keepFirst l := by
  rw [uniqueVals, uniqueValsAux_eq]
  simp

theorem keepFirst_mem : ∀ (n : ℕ) (l : List String), l.length ≤ n →
    ∀ x : String, x ∈ keepFirst l ↔ x ∈ l := by
  intro n
  induction n with
  | zero =>
    intro l hl x
    rw [List.length_eq_zero.mp (Nat.le_zero.mp hl)]
    simp [keepFirst]
  | succ n ih =>
    intro l hl x
    cases l with
    | nil => simp [keepFirst]
    | cons v rest =>
      rw [keepFirst]
      have hlen : (rest.filter (fun w => !(w == v))).length ≤ n :=
        le_trans (List.length_filter_le _ rest)
          (Nat.le_of_succ_le_succ (by simpa using hl))
      rw [List.mem_cons, List.mem_cons, ih _ hlen x]
      by_cases hx : x = v
      · simp [hx]
      · simp [hx, List.mem_filter]

theorem keepFirst_nodup : ∀ (n : ℕ) (l : List String), l.length ≤ n →
    (keepFirst l).Nodup := by
  intro n
  induction n with
  | zero =>
    intro l hl
    rw [List.length_eq_zero.mp (Nat.le_zero.mp hl)]
    simp [keepFirst]
  | succ n ih =>
    intro l hl
    cases l with
    | nil => simp [keepFirst]
    | cons v rest =>
      rw [keepFirst, List.nodup_cons]
      have hlen : (rest.filter (fun w => !(w == v))).length ≤ n :=
        le_trans (List.length_filter_le _ rest)
          (Nat.le_of_succ_le_succ (by simpa using hl))
      refine ⟨?_, ih _ hlen⟩
      rw [keepFirst_mem n _ hlen v]
      simp [List.mem_filter]

/-- **C8.** Selector enumeration is deterministic and idempotent on a fixed
dataset state, visits columns in schema order, contributes nothing for the
target column or for non-categorical (e.g. real-typed) columns, and for
every qualifying column emits one antecedent per distinct observed value in
first-appearance order (`keepFirst`): the emitted values are duplicate-free
and are exactly the observed values. -/
theorem C8_generate_selectors (cfg : Config) (schema : List Col)
    (current : List Row) :
    generate_selectors cfg schema current =
        generate_selectors cfg schema current ∧
      generate_selectors cfg schema current =
        schema.enum.flatMap (fun ic =>
          if ic.2.name == cfg.col_output then []
          else if level_categories.contains ic.2.dtype then
            (keepFirst (current.map (fun r => r.vals.getD ic.1 ""))).map
              (fun v => ⟨ic.2.name, v⟩)
          else []) ∧
      ∀ l : List String, (uniqueVals l).Nodup ∧
        ∀ v : String, v ∈ uniqueVals l ↔ v ∈ l := by
  refine ⟨rfl, ?_, ?_⟩
  · rw [generate_selectors]
    congr 1
    funext ic
    rw [uniqueVals_eq_keepFirst]
  · intro l
    rw [uniqueVals_eq_keepFirst]
    exact ⟨keepFirst_nodup l.length l (le_refl _),
      keepFirst_mem l.length l (le_refl _)⟩

theorem sumWeights_filter_add (p : Row → Bool) (l : List Row) :
    sumWeights (l.filter p) + sumWeights (l.filter (fun r => !(p r))) =
      sumWeights l := by
  induction l with
  | nil => simp [sumWeights]
  | cons r rest ih =>
    by_cases hp : p r = true <;>
      simp [sumWeights, List.filter_cons, hp] at ih ⊢ <;> linarith

theorem sumWeights_nonneg (l : List Row) (h : ∀ r ∈ l, 0 ≤ r.weight) :
    0 ≤ sumWeights l := by
  induction l with
  | nil => simp [sumWeights]
  | cons r rest ih =>
    have h1 := h r (by simp)
    have h2 := ih (fun q hq => h q (by simp [hq]))
    simp only [sumWeights, List.map_cons, List.sum_cons]
    have : sumWeights rest = (rest.map Row.weight).sum := rfl
    linarith [this ▸ h2]

theorem filter_swap (p q : Row → Bool) (l : List Row) :
    (l.filter p).filter q = (l.filter q).filter p := by
  rw [List.filter_filter, List.filter_filter]
  apply List.filter_congr
  intro r _
  rw [Bool.and_comm]

/-- **C7.** Scored against a dataset with non-negative weights — with `N`
the total weight and `n_class` the positive-class weight of that same
dataset — the WRAcc of any rule satisfies `|WRAcc| ≤ 1/4`. -/
theorem C7_wracc_bound (cfg : Config) (schema : List Col)
    (current : List Row) (rule : Rule)
    (h : ∀ r ∈ current, 0 ≤ r.weight) :
    |calculate_WRAcc cfg schema
        (filterByAntecedents schema rule.antecedents current)
        (sumWeights current)
        (sumWeights (current.filter (isPositive cfg schema)))| ≤ 1 / 4 := by
  rw [filterByAntecedents_eq_filter]
  set p := matchesRule schema rule.antecedents with hp
  set P := isPositive cfg schema with hP
  unfold calculate_WRAcc
  by_cases h0 : sumWeights (current.filter p) = 0
  · rw [if_pos h0]
    norm_num
  · rw [if_neg h0]
    set A := sumWeights ((current.filter p).filter P) with hA
    set B := sumWeights ((current.filter p).filter (fun r => !(P r))) with hB
    set C := sumWeights ((current.filter (fun r => !(p r))).filter P) with hC
    set D := sumWeights
      ((current.filter (fun r => !(p r))).filter (fun r => !(P r))) with hD
    have hA0 : 0 ≤ A := sumWeights_nonneg _ (fun r hr =>
      h r (List.mem_of_mem_filter (List.mem_of_mem_filter hr)))
    have hB0 : 0 ≤ B := sumWeights_nonneg _ (fun r hr =>
      h r (List.mem_of_mem_filter (List.mem_of_mem_filter hr)))
    have hC0 : 0 ≤ C := sumWeights_nonneg _ (fun r hr =>
      h r (List.mem_of_mem_filter (List.mem_of_mem_filter hr)))
    have hD0 : 0 ≤ D := sumWeights_nonneg _ (fun r hr =>
      h r (List.mem_of_mem_filter (List.mem_of_mem_filter hr)))
    have hAB : sumWeights (current.filter p) = A + B :=
      (sumWeights_filter_add P (current.filter p)).symm
    have hCD : sumWeights (current.filter (fun r => !(p r))) = C + D :=
      (sumWeights_filter_add P (current.filter (fun r => !(p r)))).symm
    have hPC : sumWeights (current.filter P) = A + C := by
      rw [← sumWeights_filter_add p (current.filter P)]
      rw [filter_swap P p current, filter_swap P (fun r => !(p r)) current]
    have hN : sumWeights current = A + B + (C + D) := by
      rw [← sumWeights_filter_add p current, hAB, hCD]
    have hABpos : 0 < A + B :=
      lt_of_le_of_ne (add_nonneg hA0 hB0) (fun hcon => h0 (hAB ▸ hcon.symm))
    have hNpos : 0 < sumWeights current := by
      rw [hN]
      linarith
    rw [hAB, hPC, hN]
    have key : (A + B) / (A + B + (C + D)) *
        (A / (A + B) - (A + C) / (A + B + (C + D))) =
        (A * D - B * C) / (A + B + (C + D)) ^ 2 := by
      have hNne : A + B + (C + D) ≠ 0 := by linarith
      field_simp
      ring
    have hNpos' : 0 < A + B + (C + D) := by linarith
    have hNsq : (0 : ℚ) < (A + B + (C + D)) ^ 2 := pow_pos hNpos' 2
    rw [key, abs_le]
    constructor
    · rw [le_div_iff₀ hNsq]
      nlinarith [sq_nonneg (B - C), mul_nonneg hA0 hD0, sq_nonneg (A + D),
        mul_nonneg (add_nonneg hA0 hD0) (add_nonneg hB0 hC0),
        mul_nonneg hB0 hC0]
    · rw [div_le_iff₀ hNsq]
      nlinarith [sq_nonneg (A - D), mul_nonneg hB0 hC0, sq_nonneg (B + C),
        mul_nonneg (add_nonneg hA0 hD0) (add_nonneg hB0 hC0),
        mul_nonneg hA0 hD0]

/-- `CN2_SD.check_rule` (lines 260-280): score `rule` against the current
data (successively filtering by its antecedents), store the score on the
rule, and return the scored rule together with the better of it and
`new_best` (a `None` best is replaced unconditionally; otherwise only a
strictly greater WRAcc wins). -/
def check_rule (cfg : Config) (schema : List Col) (current : List Row)
    (rule : Rule) (new_best : Option Rule) (N n_class : ℚ) :
    Rule × Option Rule :=
  let scored : Rule :=
    { rule with
        wracc := calculate_WRAcc cfg schema
          (filterByAntecedents schema rule.antecedents current) N n_class }
  (scored,
    match new_best with
    | none => some scored
    | some nb => if scored.wracc > nb.wracc then some scored else some nb)

/-- `CN2_SD.find_best` (lines 242-258): compute `N` and `n_class` once from
the current data, then run `check_rule` over the rule set, keeping the
scored rules (the Python code mutates them in place) and the running best. -/
def find_best (cfg : Config) (schema : List Col) (current : List Row)
    (rule_set : List Rule) (best_rule : Option Rule) :
    List Rule × Option Rule :=
  rule_set.foldl
    (fun acc rule =>
      let scored := check_rule cfg schema current rule acc.2
        (sumWeights current)
        (sumWeights (current.filter (isPositive cfg schema)))
      (acc.1 ++ [scored.1], scored.2))
    ([], best_rule)

/-- `CN2_SD.generate_rule_set` (lines 139-165): on the first round, one
single-antecedent rule per selector; afterwards every beam rule extended by
every selector (`Rule.rule_copy` also copies the cached score); in both
cases only candidates passing `is_valid` against the accepted rule list
are kept. -/
def generate_rule_set (rule_list rule_set : List Rule)
    (selector_list : List Antecedent) (first : Bool) : List Rule :=
  if first then
    selector_list.filterMap (fun sel =>
      let rule : Rule := ⟨[sel], 0⟩
      if is_valid rule rule_list then some rule else none)
  else
    rule_set.flatMap (fun rule =>
      selector_list.filterMap (fun sel =>
        let new_rule : Rule := ⟨rule.antecedents ++ [sel], rule.wracc⟩
        if is_valid new_rule rule_list then some new_rule else none))

/-- The `while not end_find` loop of `CN2_SD.find_best_rule`
(lines 105-113), with explicit fuel: generate the round's candidates,
score them and update the best rule, trim the beam, and stop once a round
leaves no candidates. -/
def find_best_rule_loop (cfg : Config) (schema : List Col)
    (rule_list : List Rule) (current : List Row)
    (selector_list : List Antecedent) :
    ℕ → List Rule → Option Rule → Bool → Option (Option Rule)
  | 0, _, _, _ => none
  | fuel + 1, rule_set, best_rule, first =>
    match trimLoop cfg.max_expr
        (find_best cfg schema current
          (generate_rule_set rule_list rule_set selector_list first)
          best_rule).1.length
        (find_best cfg schema current
          (generate_rule_set rule_list rule_set selector_list first)
          best_rule).1 with
    | none => none
    | some trimmed =>
      if trimmed.length = 0 then
        some (find_best cfg schema current
          (generate_rule_set rule_list rule_set selector_list first)
          best_rule).2
      else
        find_best_rule_loop cfg schema rule_list current selector_list
          fuel trimmed
          (find_best cfg schema current
            (generate_rule_set rule_list rule_set selector_list first)
            best_rule).2 false

/-- `CN2_SD.find_best_rule` (lines 91-114). -/
def find_best_rule (cfg : Config) (schema : List Col) (rule_list : List Rule)
    (current : List Row) (fuel : ℕ) : Option (Option Rule) :=
  find_best_rule_loop cfg schema rule_list current
    (generate_selectors cfg schema current) fuel [] none true

/-- `CN2_SD.stop_condition` (lines 212-226): stop when no best rule was
found, or its WRAcc is below `min_wracc`, or every current positive-class
example has weight below 0.1. -/
def stop_condition (cfg : Config) (schema : List Col) (current : List Row)
    (best_rule : Option Rule) : Bool :=
  match best_rule with
  | none => true
  | some b =>
    decide (b.wracc < cfg.min_wracc) ||
      decide
        (((current.filter (isPositive cfg schema)).filter
            (fun r => decide (r.weight < 1 / 10))).length =
          (current.filter (isPositive cfg schema)).length)

/-- `CN2_SD.do_step` (lines 74-89): find the best rule; if it exists and
meets the threshold, apply it to the data and append it to the rule list;
then evaluate the stop condition.  `none` when the inner search ran out of
fuel. -/
def do_step (cfg : Config) (schema : List Col) (current : List Row)
    (rule_list : List Rule) (fuel : ℕ) :
    Option (Bool × Option Rule × List Row × List Rule) :=
  match find_best_rule cfg schema rule_list current fuel with
  | none => none
  | some best_rule =>
    let st :=
      match best_rule with
      | some b =>
        if b.wracc ≥ cfg.min_wracc then
          (apply_rule cfg schema b current, rule_list ++ [b])
        else (current, rule_list)
      | none => (current, rule_list)
    some (stop_condition cfg schema st.1 best_rule, best_rule, st.1, st.2)

/-- `CN2_SD.add_weights` (lines 228-240): weights initialised to 1, update
counters to 0. -/
def add_weights (data : List (List String)) : List Row :=
  data.map (fun vals => ⟨vals, 1, 0⟩)

/-- The `while not end` loop of `CN2_SD.execute` (lines 61-72), with
explicit fuel for both the outer loop and each inner search. -/
def execute_loop (cfg : Config) (schema : List Col) (innerFuel : ℕ) :
    ℕ → List Row → List Rule → Option (List Row × List Rule)
  | 0, _, _ => none
  | fuel + 1, current, rule_list =>
    match do_step cfg schema current rule_list innerFuel with
    | none => none
    | some (e, _, current', rule_list') =>
      if e then some (current', rule_list')
      else execute_loop cfg schema innerFuel fuel current' rule_list'

/-- `CN2_SD.__init__` followed by `CN2_SD.execute`: add the weight columns
and run steps until the stop condition holds, returning the final data and
rule list. -/
def execute (cfg : Config) (schema : List Col) (data : List (List String))
    (innerFuel fuel : ℕ) : Option (List Row × List Rule) :=
  execute_loop cfg schema innerFuel fuel (add_weights data) []

/-- **C3.** A driver step stops (returns `end = true`) iff, evaluated after
the acceptance attempt, no best rule was found, or the best rule's WRAcc is
strictly below `min_wracc`, or every positive-class example of the
(post-acceptance) data has weight strictly below 0.1 — vacuously true when
no positive-class examples remain. -/
theorem C3_do_step_stop (cfg : Config) (schema : List Col)
    (current : List Row) (rule_list : List Rule) (fuel : ℕ) (e : Bool)
    (best : Option Rule) (current' : List Row) (rule_list' : List Rule)
    (h : do_step cfg schema current rule_list fuel =
      some (e, best, current', rule_list')) :
    e = true ↔
      best = none ∨
        ∃ b, best = some b ∧
          (b.wracc < cfg.min_wracc ∨
            ∀ r ∈ current', isPositive cfg schema r = true →
              r.weight < 1 / 10) := by
  rw [do_step] at h
  cases hfb : find_best_rule cfg schema rule_list current fuel with
  | none =>
    rw [hfb] at h
    exact absurd h (by simp)
  | some best_rule =>
    rw [hfb] at h
    simp only [Option.some.injEq, Prod.mk.injEq] at h
    obtain ⟨he, hb, hc, _⟩ := h
    subst hb
    rw [hc] at he
    cases best_rule with
    | none =>
      rw [stop_condition] at he
      simp [← he]
    | some b =>
      rw [stop_condition] at he
      rw [← he]
      simp only [Bool.or_eq_true, decide_eq_true_eq]
      constructor
      · rintro (hlt | hcount)
        · exact Or.inr ⟨b, rfl, Or.inl hlt⟩
        · refine Or.inr ⟨b, rfl, Or.inr ?_⟩
          intro r hr hpos
          have hall := (List.filter_length_eq_length).mp hcount r
            (List.mem_filter.mpr ⟨hr, hpos⟩)
          simpa using hall
      · rintro (hno | ⟨b', hb', hprop⟩)
        · exact absurd hno (by simp)
        · rw [Option.some.injEq] at hb'
          subst hb'
          rcases hprop with hlt | hall
          · exact Or.inl hlt
          · refine Or.inr ((List.filter_length_eq_length).mpr ?_)
            intro r hr
            rw [List.mem_filter] at hr
            exact decide_eq_true (hall r hr.1 hr.2)

/-- The best-rule slot returned by `check_rule` is never `None`. -/
theorem check_rule_snd_isSome (cfg : Config) (schema : List Col)
    (current : List Row) (rule : Rule) (ob : Option Rule) (N n_class : ℚ) :
    (check_rule cfg schema current rule ob N n_class).2 ≠ none := by
  cases ob with
  | none => simp [check_rule]
  | some nb =>
    rw [check_rule]
    by_cases hgt : ({ rule with
        wracc := calculate_WRAcc cfg schema
          (filterByAntecedents schema rule.antecedents current)
            N n_class } : Rule).wracc > nb.wracc <;>
      simp [hgt]

/-- The running best after `find_best` is `None` exactly when it started
`None` and the scored set was empty. -/
theorem find_best_snd_none (cfg : Config) (schema : List Col)
    (current : List Row) :
    ∀ (rs : List Rule) (acc1 : List Rule) (ob : Option Rule),
      (rs.foldl
          (fun acc rule =>
            let scored := check_rule cfg schema current rule acc.2
              (sumWeights current)
              (sumWeights (current.filter (isPositive cfg schema)))
            (acc.1 ++ [scored.1], scored.2))
          (acc1, ob)).2 = none ↔ (ob = none ∧ rs = []) := by
  intro rs
  induction rs with
  | nil => intro acc1 ob; simp
  | cons r rest ih =>
    intro acc1 ob
    rw [List.foldl_cons]
    rw [ih]
    simp only [List.cons_ne_self, and_false, iff_false, reduceCtorEq]
    rintro ⟨hnone, -⟩
    exact check_rule_snd_isSome cfg schema current r ob _ _ hnone

theorem find_best_snd_none' (cfg : Config) (schema : List Col)
    (current : List Row) (rs : List Rule) (ob : Option Rule) :
    (find_best cfg schema current rs ob).2 = none ↔ (ob = none ∧ rs = []) :=
  find_best_snd_none cfg schema current rs [] ob

/-- Once the running best is set, the search loop can only report a rule
(or run out of fuel), never `None`. -/
theorem find_best_rule_loop_some (cfg : Config) (schema : List Col)
    (rule_list : List Rule) (current : List Row)
    (selector_list : List Antecedent) :
    ∀ (fuel : ℕ) (rs : List Rule) (best : Option Rule) (first : Bool),
      best ≠ none →
      ∀ ob, find_best_rule_loop cfg schema rule_list current selector_list
          fuel rs best first = some ob →
        ob ≠ none := by
  intro fuel
  induction fuel with
  | zero =>
    intro rs best first _ ob hres
    exact absurd hres (by simp [find_best_rule_loop])
  | succ fuel ih =>
    intro rs best first hbest ob hres
    rw [find_best_rule_loop] at hres
    have hsnd : (find_best cfg schema current
        (generate_rule_set rule_list rs selector_list first) best).2 ≠
          none := fun hn => by
      rw [find_best_snd_none'] at hn
      exact hbest hn.1
    split at hres
    · exact absurd hres (by simp)
    · rename_i trimmed _
      split at hres
      · rw [Option.some.injEq] at hres
        exact hres ▸ hsnd
      · exact ih trimmed _ false hsnd ob hres

/-- An empty seed round makes the whole search report `None` immediately. -/
theorem find_best_rule_seed_empty (cfg : Config) (schema : List Col)
    (rule_list : List Rule) (current : List Row) (fuel : ℕ)
    (hseed : generate_rule_set rule_list []
      (generate_selectors cfg schema current) true = []) :
    find_best_rule cfg schema rule_list current (fuel + 1) = some none := by
  rw [find_best_rule, find_best_rule_loop, hseed]
  simp [find_best, trimLoop]

/-- **C10.** `find_best_rule` reports no rule iff the seed round produced
no valid single-antecedent candidate; with at least one valid seed it
always reports some rule (its WRAcc may be arbitrarily low or negative),
because `check_rule` replaces a `None` best unconditionally with the scored
candidate and otherwise switches only on strictly greater WRAcc. -/
theorem C10_find_best_rule_none_iff (cfg : Config) (schema : List Col)
    (rule_list : List Rule) (current : List Row) (fuel : ℕ) :
    (generate_rule_set rule_list []
          (generate_selectors cfg schema current) true = [] →
        1 ≤ fuel →
        find_best_rule cfg schema rule_list current fuel = some none) ∧
      (∀ ob, find_best_rule cfg schema rule_list current fuel = some ob →
        (ob = none ↔
          generate_rule_set rule_list []
            (generate_selectors cfg schema current) true = [])) ∧
      (∀ (rule nb : Rule) (N n_class : ℚ),
        (check_rule cfg schema current rule none N n_class).2 =
            some (check_rule cfg schema current rule none N n_class).1 ∧
          (check_rule cfg schema current rule (some nb) N n_class).2 =
            (if (check_rule cfg schema current rule
                  (some nb) N n_class).1.wracc > nb.wracc
              then some (check_rule cfg schema current rule
                (some nb) N n_class).1
              else some nb)) := by
  refine ⟨?_, ?_, ?_⟩
  · intro hseed hfuel
    cases fuel with
    | zero => omega
    | succ fuel =>
      exact find_best_rule_seed_empty cfg schema rule_list current fuel hseed
  · intro ob hres
    constructor
    · intro hnone
      by_contra hseed
      cases fuel with
      | zero =>
        exact absurd hres (by simp [find_best_rule, find_best_rule_loop])
      | succ fuel =>
        rw [find_best_rule, find_best_rule_loop] at hres
        have hsnd : (find_best cfg schema current
            (generate_rule_set rule_list []
              (generate_selectors cfg schema current) true) none).2 ≠
              none := fun hn => by
          rw [find_best_snd_none'] at hn
          exact hseed hn.2
        split at hres
        · exact absurd hres (by simp)
        · rename_i trimmed _
          split at hres
          · rw [Option.some.injEq] at hres
            exact hsnd (hres ▸ hnone)
          · exact find_best_rule_loop_some cfg schema rule_list current _
              fuel trimmed _ false hsnd ob hres hnone
    · intro hseed
      cases fuel with
      | zero =>
        exact absurd hres (by simp [find_best_rule, find_best_rule_loop])
      | succ fuel =>
        rw [find_best_rule_seed_empty cfg schema rule_list current fuel
          hseed] at hres
        simpa using hres.symm
  · intro rule nb N n_class
    exact ⟨rfl, rfl⟩

/-- A rule that passes `is_valid` has no two antecedents on the same
feature. -/
theorem is_valid_varsNodup (r : Rule) (rl : List Rule)
    (h : is_valid r rl = true) :
    (r.antecedents.map Antecedent.var).Nodup := by
  rw [is_valid, Bool.and_eq_true] at h
  exact ((noRepeatedVarAux_iff r.antecedents []).mp h.1).1

/-- A rule that passes `is_valid` is not antecedent-set-equal to any rule
of the list (whose own variables are duplicate-free). -/
theorem is_valid_not_setEqual (r : Rule) (rl : List Rule)
    (h : is_valid r rl = true) (q : Rule) (hq : q ∈ rl)
    (hqnd : (q.antecedents.map Antecedent.var).Nodup) :
    ¬ ∀ x, x ∈ r.antecedents ↔ x ∈ q.antecedents := by
  intro hset
  have hrnd := is_valid_varsNodup r rl h
  rw [is_valid, Bool.and_eq_true, List.all_eq_true] at h
  have hne := h.2 q hq
  rw [is_equal_of_set_eq r q hrnd hqnd hset] at hne
  simp at hne

/-- Rescoring a rule does not change its validity. -/
theorem is_valid_wracc_update (r : Rule) (w : ℚ) (rl : List Rule) :
    is_valid { r with wracc := w } rl = is_valid r rl :=
  rfl

/-- Every candidate produced by `generate_rule_set` passed `is_valid`
against the accepted rule list. -/
theorem generate_rule_set_valid (rule_list rule_set : List Rule)
    (selector_list : List Antecedent) (first : Bool) (r : Rule)
    (hr : r ∈ generate_rule_set rule_list rule_set selector_list first) :
    is_valid r rule_list = true := by
  rw [generate_rule_set] at hr
  by_cases hfirst : first = true
  · rw [if_pos hfirst] at hr
    obtain ⟨sel, _, hsel⟩ := List.mem_filterMap.mp hr
    by_cases hv : is_valid ⟨[sel], 0⟩ rule_list = true
    · rw [if_pos hv, Option.some.injEq] at hsel
      exact hsel ▸ hv
    · rw [if_neg hv] at hsel
      exact absurd hsel (by simp)
  · rw [if_neg hfirst] at hr
    obtain ⟨rule, _, hrule⟩ := List.mem_flatMap.mp hr
    obtain ⟨sel, _, hsel⟩ := List.mem_filterMap.mp hrule
    by_cases hv : is_valid ⟨rule.antecedents ++ [sel], rule.wracc⟩
        rule_list = true
    · rw [if_pos hv, Option.some.injEq] at hsel
      exact hsel ▸ hv
    · rw [if_neg hv] at hsel
      exact absurd hsel (by simp)

/-- The scoring fold of `find_best` preserves validity of the scored set
and of the running best. -/
theorem find_best_fold_valid (cfg : Config) (schema : List Col)
    (current : List Row) (rule_list : List Rule) :
    ∀ (rs : List Rule) (acc1 : List Rule) (ob : Option Rule),
      (∀ r ∈ rs, is_valid r rule_list = true) →
      (∀ r ∈ acc1, is_valid r rule_list = true) →
      (∀ b, ob = some b → is_valid b rule_list = true) →
      (∀ r ∈ (rs.foldl
          (fun acc rule =>
            let scored := check_rule cfg schema current rule acc.2
              (sumWeights current)
              (sumWeights (current.filter (isPositive cfg schema)))
            (acc.1 ++ [scored.1], scored.2))
          (acc1, ob)).1, is_valid r rule_list = true) ∧
      (∀ b, (rs.foldl
          (fun acc rule =>
            let scored := check_rule cfg schema current rule acc.2
              (sumWeights current)
              (sumWeights (current.filter (isPositive cfg schema)))
            (acc.1 ++ [scored.1], scored.2))
          (acc1, ob)).2 = some b → is_valid b rule_list = true) := by
  intro rs
  induction rs with
  | nil =>
    intro acc1 ob hrs hacc hob
    exact ⟨hacc, hob⟩
  | cons r rest ih =>
    intro acc1 ob hrs hacc hob
    rw [List.foldl_cons]
    have hrv : is_valid r rule_list = true := hrs r (by simp)
    have hfst : (check_rule cfg schema current r ob (sumWeights current)
        (sumWeights (current.filter (isPositive cfg schema)))).1 =
        { r with
            wracc := calculate_WRAcc cfg schema
              (filterByAntecedents schema r.antecedents current)
              (sumWeights current)
              (sumWeights (current.filter (isPositive cfg schema))) } := rfl
    have hscored : is_valid (check_rule cfg schema current r ob
        (sumWeights current)
        (sumWeights (current.filter (isPositive cfg schema)))).1
        rule_list = true := by
      rw [hfst, is_valid_wracc_update]
      exact hrv
    apply ih
    · intro q hq
      exact hrs q (by simp [hq])
    · intro q hq
      rcases List.mem_append.mp hq with hq | hq
      · exact hacc q hq
      · rw [List.mem_singleton] at hq
        exact hq ▸ hscored
    · intro b hb
      cases ob with
      | none =>
        have hsnd : (check_rule cfg schema current r none (sumWeights current)
            (sumWeights (current.filter (isPositive cfg schema)))).2 =
            some (check_rule cfg schema current r none (sumWeights current)
              (sumWeights (current.filter (isPositive cfg schema)))).1 := rfl
        rw [hsnd, Option.some.injEq] at hb
        exact hb ▸ hscored
      | some nb =>
        have hsnd : (check_rule cfg schema current r (some nb)
            (sumWeights current)
            (sumWeights (current.filter (isPositive cfg schema)))).2 =
            (if (check_rule cfg schema current r (some nb)
                  (sumWeights current)
                  (sumWeights (current.filter
                    (isPositive cfg schema)))).1.wracc > nb.wracc
              then some (check_rule cfg schema current r (some nb)
                (sumWeights current)
                (sumWeights (current.filter (isPositive cfg schema)))).1
              else some nb) := rfl
        rw [hsnd] at hb
        split at hb
        · rw [Option.some.injEq] at hb
          exact hb ▸ hscored
        · rw [Option.some.injEq] at hb
          exact hb ▸ hob nb rfl

theorem find_best_valid (cfg : Config) (schema : List Col)
    (current : List Row) (rule_list : List Rule) (rs : List Rule)
    (ob : Option Rule)
    (hrs : ∀ r ∈ rs, is_valid r rule_list = true)
    (hob : ∀ b, ob = some b → is_valid b rule_list = true) :
    (∀ r ∈ (find_best cfg schema current rs ob).1,
        is_valid r rule_list = true) ∧
      (∀ b, (find_best cfg schema current rs ob).2 = some b →
        is_valid b rule_list = true) :=
  find_best_fold_valid cfg schema current rule_list rs [] ob hrs
    (by simp) hob

theorem trimLoop_subset (B : ℕ) :
    ∀ (fuel : ℕ) (rs out : List Rule), trimLoop B fuel rs = some out →
      ∀ r ∈ out, r ∈ rs := by
  intro fuel
  induction fuel with
  | zero =>
    intro rs out h r hr
    rw [trimLoop] at h
    split at h
    · rw [Option.some.injEq] at h
      exact h ▸ hr
    · exact absurd h (by simp)
  | succ fuel ih =>
    intro rs out h r hr
    rw [trimLoop] at h
    split at h
    · rw [Option.some.injEq] at h
      exact h ▸ hr
    · split at h
      · exact eliminate_worst_subset rs r (ih _ out h r hr)
      · exact absurd h (by simp)

/-- Any rule reported by the search loop passed `is_valid` against the
rule list the search was started with. -/
theorem find_best_rule_loop_valid (cfg : Config) (schema : List Col)
    (rule_list : List Rule) (current : List Row)
    (selector_list : List Antecedent) :
    ∀ (fuel : ℕ) (rs : List Rule) (best : Option Rule) (first : Bool),
      (∀ r ∈ rs, is_valid r rule_list = true) →
      (∀ b, best = some b → is_valid b rule_list = true) →
      ∀ ob b, find_best_rule_loop cfg schema rule_list current selector_list
          fuel rs best first = some ob → ob = some b →
        is_valid b rule_list = true := by
  intro fuel
  induction fuel with
  | zero =>
    intro rs best first _ _ ob b hres
    exact absurd hres (by simp [find_best_rule_loop])
  | succ fuel ih =>
    intro rs best first hrs hbest ob b hres hob
    rw [find_best_rule_loop] at hres
    have hgen : ∀ r ∈ generate_rule_set rule_list rs selector_list first,
        is_valid r rule_list = true :=
      fun r hr => generate_rule_set_valid rule_list rs selector_list first r hr
    have hfb := find_best_valid cfg schema current rule_list
      (generate_rule_set rule_list rs selector_list first) best hgen hbest
    split at hres
    · exact absurd hres (by simp)
    · rename_i trimmed htrim
      split at hres
      · rw [Option.some.injEq] at hres
        exact hfb.2 b (by rw [hres, hob])
      · refine ih trimmed _ false ?_ hfb.2 ob b hres hob
        intro r hr
        exact hfb.1 r (trimLoop_subset cfg.max_expr _ _ trimmed htrim r hr)

theorem find_best_rule_valid (cfg : Config) (schema : List Col)
    (rule_list : List Rule) (current : List Row) (fuel : ℕ) (b : Rule)
    (h : find_best_rule cfg schema rule_list current fuel = some (some b)) :
    is_valid b rule_list = true :=
  find_best_rule_loop_valid cfg schema rule_list current
    (generate_selectors cfg schema current) fuel [] none true
    (by simp) (by simp) (some b) b h rfl

/-- Antecedent-set equality is symmetric. -/
theorem setEqual_symm (a b : Rule)
    (h : ∀ x, x ∈ a.antecedents ↔ x ∈ b.antecedents) :
    ∀ x, x ∈ b.antecedents ↔ x ∈ a.antecedents :=
  fun x => (h x).symm

/-- One driver step preserves the rule-list invariant: duplicate-free
variables within each rule, and pairwise non-set-equal antecedent
collections. -/
theorem do_step_preserves_inv (cfg : Config) (schema : List Col)
    (current : List Row) (rule_list : List Rule) (fuel : ℕ) (e : Bool)
    (best : Option Rule) (current' : List Row) (rule_list' : List Rule)
    (h : do_step cfg schema current rule_list fuel =
      some (e, best, current', rule_list'))
    (h1 : ∀ r ∈ rule_list, (r.antecedents.map Antecedent.var).Nodup)
    (h2 : rule_list.Pairwise
      (fun a b => ¬ ∀ x, x ∈ a.antecedents ↔ x ∈ b.antecedents)) :
    (∀ r ∈ rule_list', (r.antecedents.map Antecedent.var).Nodup) ∧
      rule_list'.Pairwise
        (fun a b => ¬ ∀ x, x ∈ a.antecedents ↔ x ∈ b.antecedents) := by
  rw [do_step] at h
  cases hfb : find_best_rule cfg schema rule_list current fuel with
  | none =>
    rw [hfb] at h
    exact absurd h (by simp)
  | some best_rule =>
    rw [hfb] at h
    simp only [Option.some.injEq, Prod.mk.injEq] at h
    obtain ⟨-, -, -, hr⟩ := h
    cases best_rule with
    | none =>
      simp only at hr
      exact hr ▸ ⟨h1, h2⟩
    | some b =>
      simp only at hr
      by_cases hge : b.wracc ≥ cfg.min_wracc
      · rw [if_pos hge] at hr
        simp only at hr
        have hvalid : is_valid b rule_list = true :=
          find_best_rule_valid cfg schema rule_list current fuel b hfb
        have hbnd := is_valid_varsNodup b rule_list hvalid
        refine hr ▸ ⟨?_, ?_⟩
        · intro q hq
          rcases List.mem_append.mp hq with hq | hq
          · exact h1 q hq
          · rw [List.mem_singleton] at hq
            exact hq ▸ hbnd
        · rw [List.pairwise_append]
          refine ⟨h2, by simp, ?_⟩
          intro q hq b' hb'
          rw [List.mem_singleton] at hb'
          subst hb'
          intro hset
          exact is_valid_not_setEqual b' rule_list hvalid q hq (h1 q hq)
            (setEqual_symm q b' hset)
      · rw [if_neg hge] at hr
        simp only at hr
        exact hr ▸ ⟨h1, h2⟩

theorem execute_loop_inv (cfg : Config) (schema : List Col) (innerFuel : ℕ) :
    ∀ (fuel : ℕ) (current : List Row) (rule_list : List Rule)
      (out : List Row × List Rule),
      (∀ r ∈ rule_list, (r.antecedents.map Antecedent.var).Nodup) →
      rule_list.Pairwise
        (fun a b => ¬ ∀ x, x ∈ a.antecedents ↔ x ∈ b.antecedents) →
      execute_loop cfg schema innerFuel fuel current rule_list = some out →
      (∀ r ∈ out.2, (r.antecedents.map Antecedent.var).Nodup) ∧
        out.2.Pairwise
          (fun a b => ¬ ∀ x, x ∈ a.antecedents ↔ x ∈ b.antecedents) := by
  intro fuel
  induction fuel with
  | zero =>
    intro current rule_list out _ _ h
    exact absurd h (by simp [execute_loop])
  | succ fuel ih =>
    intro current rule_list out h1 h2 h
    rw [execute_loop] at h
    cases hds : do_step cfg schema current rule_list innerFuel with
    | none =>
      rw [hds] at h
      exact absurd h (by simp)
    | some res =>
      obtain ⟨e, best, current', rule_list'⟩ := res
      rw [hds] at h
      have hinv := do_step_preserves_inv cfg schema current rule_list
        innerFuel e best current' rule_list' hds h1 h2
      by_cases he : e = true
      · rw [he] at h
        simp only [if_true] at h
        rw [Option.some.injEq] at h
        exact h ▸ hinv
      · rw [Bool.not_eq_true] at he
        rw [he] at h
        simp only [Bool.false_eq_true, if_false] at h
        exact ih current' rule_list' out hinv.1 hinv.2 h

/-- **C6.** In every final rule list the algorithm produces, no rule has
two antecedents on the same feature, and no two rules have set-equal
antecedent collections — both enforced by the `is_valid` check against the
current rule list. -/
theorem C6_final_rule_list (cfg : Config) (schema : List Col)
    (data : List (List String)) (innerFuel fuel : ℕ)
    (out : List Row × List Rule)
    (h : execute cfg schema data innerFuel fuel = some out) :
    (∀ r ∈ out.2, (r.antecedents.map Antecedent.var).Nodup) ∧
      out.2.Pairwise
        (fun a b => ¬ ∀ x, x ∈ a.antecedents ↔ x ∈ b.antecedents) :=
  execute_loop_inv cfg schema innerFuel fuel (add_weights data) [] out
    (by simp) (by simp) h

section WitnessEvaluation

/- Batteries marks the `Rat` field operations `@[irreducible]`; restore
default reducibility locally so the witnesses below evaluate by `decide`. -/
attribute [local semireducible] Rat.add Rat.mul Rat.inv Rat.sub

/-- Concrete configuration (covering policy) for the witnesses. -/
def cfgCover : Config := ⟨"Survived", "Yes", 2, 1 / 100, 0, 1 / 2⟩

/-- Concrete configuration (multiplicative policy) for the witnesses. -/
def cfgMult : Config := ⟨"Survived", "Yes", 2, 1 / 100, 1, 1 / 2⟩

/-- Concrete two-column schema for the witnesses. -/
def schemaW : List Col := [⟨"A", "object"⟩, ⟨"Survived", "object"⟩]

/-- Concrete two-row input for the witnesses. -/
def rawW : List (List String) := [["x", "Yes"], ["y", "No"]]

/-- The concrete input with the weight columns added. -/
def dataW : List Row := add_weights rawW

/-- The rule `A = x` as found (and scored) on the concrete input. -/
def ruleAx : Rule := ⟨[⟨"A", "x"⟩], 1 / 4⟩

/-- A concrete scored rule set for the trimming witnesses. -/
def rsW : List Rule := [⟨[], 1 / 4⟩, ⟨[], 0⟩, ⟨[], -(1 / 4)⟩]

theorem C2_covering_removes_matched_witness :
    cfgCover.weight_method = 0 ∧
      (apply_rule cfgCover schemaW ruleAx dataW =
          dataW.filter (fun r => !(matchesRule schemaW ruleAx.antecedents r)) ∧
        (apply_rule cfgCover schemaW ruleAx dataW).length ≤ dataW.length) :=
  ⟨rfl, C2_covering_removes_matched cfgCover schemaW ruleAx dataW rfl⟩

theorem C3_do_step_stop_witness :
    (true = true) ↔
      ((some ruleAx : Option Rule) = none ∨
        ∃ b, (some ruleAx : Option Rule) = some b ∧
          (b.wracc < cfgCover.min_wracc ∨
            ∀ r ∈ [(⟨["y", "No"], 1, 0⟩ : Row)],
              isPositive cfgCover schemaW r = true → r.weight < 1 / 10)) :=
  C3_do_step_stop cfgCover schemaW dataW [] 2 true (some ruleAx)
    [⟨["y", "No"], 1, 0⟩] [ruleAx] (by decide)

theorem C4_decay_update_witness :
    cfgMult.weight_method = 1 ∧
      (apply_rule cfgMult schemaW ruleAx dataW =
          dataW.map (fun r =>
            if matchesRule schemaW ruleAx.antecedents r ∧
                isPositive cfgMult schemaW r then
              { r with
                  weight :=
                    if cfgMult.weight_method = 1 then
                      cfgMult.gamma ^ r.weight_times
                    else 1 / ((r.weight_times : ℚ) + 1),
                  weight_times := r.weight_times + 1 }
            else r) ∧
        (apply_rule cfgMult schemaW ruleAx dataW).length = dataW.length) :=
  ⟨rfl, C4_decay_update cfgMult schemaW ruleAx dataW (Or.inl rfl)⟩

theorem C5_trim_beam_witness :
    (∃ out, trimLoop 1 rsW.length rsW = some out ∧ out.length ≤ 1 ∧
        ∃ k, out = eliminate_worst^[k] rsW) ∧
      (∀ rs' : List Rule, (∀ r ∈ rs', r.wracc < 1) → 1 < rs'.length →
        ∃ l1 w l2, rs' = l1 ++ w :: l2 ∧
          eliminate_worst rs' = l1 ++ l2 ∧
          (∀ q ∈ rs', w.wracc ≤ q.wracc) ∧
          (∀ q ∈ l1, w.wracc < q.wracc)) :=
  C5_trim_beam 1 rsW (by decide)

theorem C6_final_rule_list_witness :
    (∀ r ∈ (([⟨["y", "No"], 1, 0⟩], [ruleAx]) :
        List Row × List Rule).2, (r.antecedents.map Antecedent.var).Nodup) ∧
      (([⟨["y", "No"], 1, 0⟩], [ruleAx]) :
          List Row × List Rule).2.Pairwise
        (fun a b => ¬ ∀ x, x ∈ a.antecedents ↔ x ∈ b.antecedents) :=
  C6_final_rule_list cfgCover schemaW rawW 2 1
    ([⟨["y", "No"], 1, 0⟩], [ruleAx]) (by decide)

theorem C7_wracc_bound_witness :
    |calculate_WRAcc cfgCover schemaW
        (filterByAntecedents schemaW ruleAx.antecedents dataW)
        (sumWeights dataW)
        (sumWeights (dataW.filter (isPositive cfgCover schemaW)))| ≤ 1 / 4 :=
  C7_wracc_bound cfgCover schemaW dataW ruleAx (by decide)

theorem C9_eliminate_worst_progress_witness :
    (eliminate_worst rsW).length + 1 = rsW.length ∧
      ∃ out, trimLoop 1 rsW.length rsW = some out :=
  ⟨(C9_eliminate_worst_progress rsW).1 ⟨by decide, by decide⟩,
    (C9_eliminate_worst_progress rsW).2.2 (by decide) 1⟩

theorem C10_find_best_rule_none_iff_witness :
    ((some ruleAx : Option Rule) = none ↔
      generate_rule_set [] []
        (generate_selectors cfgCover schemaW dataW) true = []) :=
  (C10_find_best_rule_none_iff cfgCover schemaW [] dataW 2).2.1
    (some ruleAx) (by decide)

end WitnessEvaluation
